import Mathlib

/-!
Shallow embedding of the throttle semaphore server core (Rust sources
`src/leases.rs`, `src/state.rs`, `src/semaphore_service.rs`).

Modelling conventions:
* `Instant` timestamps become `Nat`.
* `i64` amounts and maxima become `Int`; the `u32` request amounts become
  `Nat` and are cast to `Int` exactly where the Rust code performs
  `amount as i64`.
* `HashMap<u64, Peer>` becomes an association list `List (Nat × Peer)`;
  iteration order of the map is the list order (the Rust iteration order is
  unspecified but fixed for a given map state, which the list realises).
* The randomly drawn fresh peer id of `new_unique_peer_id` becomes an
  explicit argument; freshness is a hypothesis where it matters.
* The mutex and condition variable carry no data; operations become pure
  state-passing functions.  `Condvar::notify_all` has no ledger effect and
  is dropped.  For `block_until_acquired`, the deterministic first part up to
  the first `Condvar::wait_timeout` is embedded; the value `none` in the
  result marks the point where the Rust code would suspend on the
  condition variable.
* The `.expect("An active semaphore must always be configured")` panic in
  `State::release` is modelled by skipping `resolve_pending` when the
  configuration lookup fails; every theorem touching that path assumes the
  semaphore configured, as the panic's comment asserts.
-/

namespace Throttle

/-- Rust `Peer` from `leases.rs`: one lease held by one peer. -/
structure Peer where
  semaphore : String
  active : Bool
  amount : Int
  valid_until : Nat
  deriving Repr, DecidableEq

/-- Rust `Peer::count_active`: the contribution of this lease to the active
count of `semaphore`. -/
def Peer.count_active (p : Peer) (semaphore : String) : Int :=
  if p.active && p.semaphore == semaphore then p.amount else 0

/-- Rust `Peer::activate_viable`: flip a pending lease of this semaphore to
active when the remainder still covers its amount, debiting the
remainder.  Returns the updated peer and remainder. -/
def Peer.activate_viable (p : Peer) (semaphore : String) (remainder : Int) :
    Peer × Int :=
  if !p.active && semaphore == p.semaphore && decide (p.amount ≤ remainder) then
    ({ p with active := true }, remainder - p.amount)
  else
    (p, remainder)

/-- Rust `Leases` from `leases.rs`: the ledger mapping peer ids to leases. -/
structure Leases where
  ledger : List (Nat × Peer)
  deriving Repr, DecidableEq

namespace Leases

/-- Rust `Leases::new`. -/
def new : Leases := ⟨[]⟩

/-- Lookup of a peer id in the ledger (`self.ledger.get(&peer_id)`). -/
def lookup (l : Leases) (peer_id : Nat) : Option Peer :=
  (l.ledger.find? (fun e => e.1 == peer_id)).map (·.2)

/-- Rust `Leases::count`: aggregated amount of active leases of the semaphore. -/
def count (l : Leases) (semaphore : String) : Int :=
  (l.ledger.map (fun e => e.2.count_active semaphore)).sum

/-- Rust `Leases::add`: insert a fresh lease, active iff the count stays within
`max`.  The fresh random peer id is passed explicitly. -/
def add (l : Leases) (semaphore : String) (amount : Nat) (max : Int)
    (valid_until : Nat) (peer_id : Nat) : Bool × Leases :=
  let amt : Int := (amount : Int)
  let active := decide (l.count semaphore + amt ≤ max)
  (active,
   ⟨l.ledger ++ [(peer_id, ⟨semaphore, active, amt, valid_until⟩)]⟩)

/-- Rust `Leases::remove`: drop the peer, returning its semaphore name. -/
def remove (l : Leases) (peer_id : Nat) : Option String × Leases :=
  match l.lookup peer_id with
  | some p => (some p.semaphore, ⟨l.ledger.filter (fun e => !(e.1 == peer_id))⟩)
  | none => (none, l)

/-- The loop body of `Leases::resolve_pending`: walk the ledger in order,
breaking as soon as the remainder is exhausted, otherwise activating each
viable pending lease. -/
def resolveGo (semaphore : String) : Int → List (Nat × Peer) → List (Nat × Peer)
  | _, [] => []
  | remainder, e :: rest =>
    if remainder ≤ 0 then e :: rest
    else
      let pr := e.2.activate_viable semaphore remainder
      (e.1, pr.1) :: resolveGo semaphore pr.2 rest

/-- Rust `Leases::resolve_pending`: activate pending leases of the semaphore
first-fit until the remainder is exhausted. -/
def resolve_pending (l : Leases) (semaphore : String) (max : Int) : Leases :=
  ⟨resolveGo semaphore (max - l.count semaphore) l.ledger⟩

/-- Rust `Leases::has_pending`: `some active` when the peer exists, `none`
otherwise. -/
def has_pending (l : Leases) (peer_id : Nat) : Option Bool :=
  (l.lookup peer_id).map (·.active)

/-- Rust `Leases::remove_expired`: retain leases with `now < valid_until`,
returning how many were dropped. -/
def remove_expired (l : Leases) (now : Nat) : Nat × Leases :=
  let kept := l.ledger.filter (fun e => decide (now < e.2.valid_until))
  (l.ledger.length - kept.length, ⟨kept⟩)

/-- Rust `Leases::update_valid_until`: refresh the peer's deadline, reporting
whether the peer was found. -/
def update_valid_until (l : Leases) (peer_id : Nat) (valid_until : Nat) :
    Bool × Leases :=
  if (l.lookup peer_id).isSome then
    (true,
     ⟨l.ledger.map (fun e =>
        if e.1 == peer_id then (e.1, { e.2 with valid_until := valid_until })
        else e)⟩)
  else
    (false, l)

/-- Rust `Leases::revenant`: reinsert a lease at a caller-supplied peer id; a
formerly active lease stays active even when it overbooks, a pending one
is activated only if the count (computed before insertion) allows it. -/
def revenant (l : Leases) (peer_id : Nat) (semaphore : String) (amount : Nat)
    (active : Bool) (max : Int) (valid_until : Nat) : Leases :=
  let amt : Int := (amount : Int)
  ⟨l.ledger ++
    [(peer_id,
      ⟨semaphore, active || decide (l.count semaphore + amt ≤ max), amt,
       valid_until⟩)]⟩

end Leases

/-- The error taxonomy of `state.rs`. -/
inductive Error where
  | UnknownSemaphore
  | UnknownPeer
  | ForeverPending (asked : Int) (max : Int)
  deriving Repr, DecidableEq

/-- Rust `State` from `state.rs`: the ledger plus the immutable semaphore
configuration (the mutex and condvar carry no data). -/
structure St where
  semaphores : List (String × Int)
  leases : Leases
  deriving Repr

/-- Rust `self.semaphores.get(semaphore)` on the configuration map. -/
def lookupSem (cfg : List (String × Int)) (semaphore : String) : Option Int :=
  (cfg.find? (fun e => e.1 == semaphore)).map (·.2)

namespace St

/-- Rust `State::acquire`: refuse unknown semaphores and forever-pending
amounts, otherwise add the lease.  `valid_until` stands for
`Instant::now() + expires_in`, `peer_id` for the fresh random id. -/
def acquire (st : St) (semaphore : String) (amount : Nat) (valid_until : Nat)
    (peer_id : Nat) : Except Error (Nat × Bool) × St :=
  match lookupSem st.semaphores semaphore with
  | some max =>
    if max < (amount : Int) then
      (.error (.ForeverPending (amount : Int) max), st)
    else
      let r := st.leases.add semaphore amount max valid_until peer_id
      (.ok (peer_id, r.1), { st with leases := r.2 })
  | none => (.error .UnknownSemaphore, st)

/-- Rust `State::remove_expired`: sweep the ledger (the broadcast on `released`
has no ledger effect). -/
def remove_expired (st : St) (now : Nat) : Nat × St :=
  let r := st.leases.remove_expired now
  (r.1, { st with leases := r.2 })

/-- Rust `State::release`: remove the peer and, if it held a lease, resolve
pending leases of its semaphore.  The `.expect` on the configuration
lookup is modelled by skipping resolution when the lookup fails. -/
def release (st : St) (peer_id : Nat) : Bool × St :=
  match st.leases.remove peer_id with
  | (some semaphore, l') =>
    match lookupSem st.semaphores semaphore with
    | some max => (true, { st with leases := l'.resolve_pending semaphore max })
    | none => (true, { st with leases := l' })
  | (none, _) => (false, st)

/-- Rust `State::remainder`: `max - count` for a configured semaphore. -/
def remainder (st : St) (semaphore : String) : Except Error Int :=
  match lookupSem st.semaphores semaphore with
  | some max => .ok (max - st.leases.count semaphore)
  | none => .error .UnknownSemaphore

/-- Rust `State::heartbeat_for_active_peer`: refresh the deadline; when the
peer is unknown, check the semaphore and reinsert a revenant with
`active = false`. -/
def heartbeat_for_active_peer (st : St) (peer_id : Nat) (semaphore : String)
    (amount : Nat) (valid_until : Nat) : Except Error Unit × St :=
  let r := st.leases.update_valid_until peer_id valid_until
  if r.1 then
    (.ok (), { st with leases := r.2 })
  else
    match lookupSem st.semaphores semaphore with
    | some max =>
      (.ok (),
       { st with leases :=
          st.leases.revenant peer_id semaphore amount false max valid_until })
    | none => (.error .UnknownSemaphore, st)

/-- Rust `State::block_until_acquired`, embedded up to the first wait on the
condition variable.  `valid_until` stands for `start + expires_in` and
`elapsed` for `start.elapsed()` at the first check of the loop.  The
result `ok (some b)` means the call returns `b` without waiting;
`ok none` marks the point where the Rust code suspends on `released`. -/
def block_until_acquired (st : St) (peer_id : Nat) (valid_until : Nat)
    (semaphore : String) (amount : Nat) (timeout elapsed : Nat) :
    Except Error (Option Bool) × St :=
  let r := st.leases.update_valid_until peer_id valid_until
  match
    (if r.1 then some r.2
     else
       match lookupSem st.semaphores semaphore with
       | some max =>
         some (st.leases.revenant peer_id semaphore amount false max valid_until)
       | none => none) with
  | none => (.error .UnknownSemaphore, st)
  | some l1 =>
    (match l1.has_pending peer_id with
     | none => .error .UnknownPeer
     | some true => .ok (some true)
     | some false =>
       if timeout ≤ elapsed then .ok (some false) else .ok none,
     { st with leases := l1 })

end St

/-- Transport-level outcome of the `/acquire` endpoint in
`semaphore_service.rs`. -/
inductive AcquireResponse where
  | created (lease_id : Nat)
  | accepted (lease_id : Nat)
  | fromError (e : Error)
  | badRequestEmpty
  deriving Repr, DecidableEq

/-- The `/acquire` handler of `semaphore_service.rs`: pick the first
`(semaphore, amount)` entry of the body's `pending` map (its iteration
order is the list order here); an empty map is answered with 400 without
touching the state. -/
def acquireEndpoint (st : St) (pending : List (String × Nat))
    (valid_until : Nat) (peer_id : Nat) : AcquireResponse × St :=
  match pending.head? with
  | some (semaphore, amount) =>
    match st.acquire semaphore amount valid_until peer_id with
    | (.ok (lease_id, true), st') => (.created lease_id, st')
    | (.ok (lease_id, false), st') => (.accepted lease_id, st')
    | (.error e, st') => (.fromError e, st')
  | none => (.badRequestEmpty, st)

/-! ### Helper notions and lemmas -/

/-- Active count of a semaphore over a raw ledger list. -/
def cntL (semaphore : String) (lst : List (Nat × Peer)) : Int :=
  (lst.map (fun e => e.2.count_active semaphore)).sum

theorem count_eq_cntL (l : Leases) (s : String) : l.count s = cntL s l.ledger :=
  rfl

@[simp] theorem cntL_nil (s : String) : cntL s [] = 0 := rfl

@[simp] theorem cntL_cons (s : String) (e : Nat × Peer) (lst : List (Nat × Peer)) :
    cntL s (e :: lst) = e.2.count_active s + cntL s lst := by
  simp [cntL]

theorem cntL_append (s : String) (a b : List (Nat × Peer)) :
    cntL s (a ++ b) = cntL s a + cntL s b := by
  simp [cntL]

theorem count_active_nonneg {p : Peer} (h : 0 ≤ p.amount) (s : String) :
    0 ≤ p.count_active s := by
  unfold Peer.count_active
  split <;> simp [h]

theorem cntL_nonneg {s : String} {lst : List (Nat × Peer)}
    (h : ∀ e ∈ lst, 0 ≤ e.2.amount) : 0 ≤ cntL s lst := by
  induction lst with
  | nil => simp
  | cons e rest ih =>
    have he : 0 ≤ e.2.amount := h e (List.mem_cons_self e rest)
    have hrest : 0 ≤ cntL s rest := ih fun x hx => h x (List.mem_cons_of_mem e hx)
    have := count_active_nonneg he s
    simp only [cntL_cons]
    omega

theorem cntL_sublist_le {s : String} {a b : List (Nat × Peer)}
    (hsub : a.Sublist b) (h : ∀ e ∈ b, 0 ≤ e.2.amount) : cntL s a ≤ cntL s b := by
  apply List.Sublist.sum_le_sum (hsub.map (fun e => e.2.count_active s))
  intro x hx
  rcases List.mem_map.1 hx with ⟨e, he, rfl⟩
  exact count_active_nonneg (h e he) s

/-- Case split for `Peer.activate_viable`: the lease is activated. -/
theorem activate_viable_pos {p : Peer} {s : String} {rem : Int}
    (h1 : p.active = false) (h2 : s = p.semaphore) (h3 : p.amount ≤ rem) :
    p.activate_viable s rem = ({ p with active := true }, rem - p.amount) := by
  unfold Peer.activate_viable
  rw [if_pos]
  simp [h1, h2, h3]

/-- Case split for `Peer.activate_viable`: the lease is left alone. -/
theorem activate_viable_neg {p : Peer} {s : String} {rem : Int}
    (h : ¬ (p.active = false ∧ s = p.semaphore ∧ p.amount ≤ rem)) :
    p.activate_viable s rem = (p, rem) := by
  unfold Peer.activate_viable
  rw [if_neg]
  simp only [Bool.and_eq_true, Bool.not_eq_true', beq_iff_eq, decide_eq_true_eq]
  intro hc
  exact h ⟨hc.1.1, hc.1.2, hc.2⟩

theorem resolveGo_cons (s : String) (rem : Int) (e : Nat × Peer)
    (rest : List (Nat × Peer)) :
    Leases.resolveGo s rem (e :: rest) =
      if rem ≤ 0 then e :: rest
      else (e.1, (e.2.activate_viable s rem).1) ::
        Leases.resolveGo s (e.2.activate_viable s rem).2 rest := rfl

/-- The relation between a ledger entry and its image under
`resolve_pending`: identity except that `active` may flip from `false` to
`true`, and only on the resolved semaphore. -/
def ResolveFrame (semaphore : String) (e e' : Nat × Peer) : Prop :=
  e'.1 = e.1 ∧ e'.2.semaphore = e.2.semaphore ∧ e'.2.amount = e.2.amount ∧
  e'.2.valid_until = e.2.valid_until ∧
  (e.2.active = true → e'.2.active = true) ∧
  (e'.2.active ≠ e.2.active →
    e.2.semaphore = semaphore ∧ e.2.active = false ∧ e'.2.active = true)

theorem resolveFrame_refl (s : String) (e : Nat × Peer) : ResolveFrame s e e := by
  refine ⟨rfl, rfl, rfl, rfl, fun h => h, fun h => absurd rfl h⟩

theorem resolveGo_frame (s : String) :
    ∀ (rem : Int) (lst : List (Nat × Peer)),
      List.Forall₂ (ResolveFrame s) lst (Leases.resolveGo s rem lst)
  | _, [] => List.Forall₂.nil
  | rem, e :: rest => by
    rw [resolveGo_cons]
    by_cases hrem : rem ≤ 0
    · rw [if_pos hrem]
      exact List.forall₂_same.2 fun x _ => resolveFrame_refl s x
    · rw [if_neg hrem]
      by_cases hcond : e.2.active = false ∧ s = e.2.semaphore ∧ e.2.amount ≤ rem
      · rw [activate_viable_pos hcond.1 hcond.2.1 hcond.2.2]
        refine List.Forall₂.cons ?_ (resolveGo_frame s _ rest)
        exact ⟨rfl, rfl, rfl, rfl, fun _ => rfl, fun _ =>
          ⟨hcond.2.1.symm, hcond.1, rfl⟩⟩
      · rw [activate_viable_neg hcond]
        exact List.Forall₂.cons (resolveFrame_refl s e) (resolveGo_frame s _ rest)

/-- Function `resolveGo` raises the count of the resolved semaphore by at most the
(nonnegative part of the) remainder it was started with. -/
theorem resolveGo_cnt_le (s : String) :
    ∀ (rem : Int) (lst : List (Nat × Peer)),
      cntL s (Leases.resolveGo s rem lst) ≤ cntL s lst + max rem 0
  | _, [] => by simp [Leases.resolveGo]
  | rem, e :: rest => by
    rw [resolveGo_cons]
    by_cases hrem : rem ≤ 0
    · rw [if_pos hrem]
      have : max rem 0 = 0 := by omega
      omega
    · rw [if_neg hrem]
      by_cases hcond : e.2.active = false ∧ s = e.2.semaphore ∧ e.2.amount ≤ rem
      · rw [activate_viable_pos hcond.1 hcond.2.1 hcond.2.2]
        simp only [cntL_cons]
        have hih := resolveGo_cnt_le s (rem - e.2.amount) rest
        have hold : e.2.count_active s = 0 := by
          simp [Peer.count_active, hcond.1]
        have hnew : ({ e.2 with active := true } : Peer).count_active s
            = e.2.amount := by
          simp [Peer.count_active, hcond.2.1]
        have hle : e.2.amount ≤ rem := hcond.2.2
        rw [hold, hnew]
        omega
      · rw [activate_viable_neg hcond]
        simp only [cntL_cons]
        have hih := resolveGo_cnt_le s rem rest
        omega

/-- Function `resolveGo` leaves the counts of other semaphores unchanged. -/
theorem resolveGo_cnt_other {s s' : String} (hne : s' ≠ s) :
    ∀ (rem : Int) (lst : List (Nat × Peer)),
      cntL s' (Leases.resolveGo s rem lst) = cntL s' lst
  | _, [] => rfl
  | rem, e :: rest => by
    rw [resolveGo_cons]
    by_cases hrem : rem ≤ 0
    · rw [if_pos hrem]
    · rw [if_neg hrem]
      by_cases hcond : e.2.active = false ∧ s = e.2.semaphore ∧ e.2.amount ≤ rem
      · rw [activate_viable_pos hcond.1 hcond.2.1 hcond.2.2]
        simp only [cntL_cons]
        have hih := resolveGo_cnt_other hne (rem - e.2.amount) rest
        have hold : e.2.count_active s' = 0 := by
          simp [Peer.count_active, hcond.1]
        have hsem : ¬ e.2.semaphore = s' := fun h => hne ((hcond.2.1.trans h).symm)
        have hnew : ({ e.2 with active := true } : Peer).count_active s' = 0 := by
          simp [Peer.count_active, hsem]
        rw [hnew, hold, hih]
      · rw [activate_viable_neg hcond]
        simp only [cntL_cons]
        rw [resolveGo_cnt_other hne rem rest]

/-- Function `resolveGo` never lowers the count of the resolved semaphore, as long
as its pending leases carry nonnegative amounts. -/
theorem resolveGo_cnt_mono (s : String) :
    ∀ (rem : Int) (lst : List (Nat × Peer)),
      (∀ e ∈ lst, e.2.active = false → e.2.semaphore = s → 0 ≤ e.2.amount) →
      cntL s lst ≤ cntL s (Leases.resolveGo s rem lst)
  | _, [], _ => le_refl _
  | rem, e :: rest, hpos => by
    rw [resolveGo_cons]
    by_cases hrem : rem ≤ 0
    · rw [if_pos hrem]
    · rw [if_neg hrem]
      have htail : ∀ x ∈ rest, x.2.active = false → x.2.semaphore = s →
          0 ≤ x.2.amount :=
        fun x hx => hpos x (List.mem_cons_of_mem e hx)
      by_cases hcond : e.2.active = false ∧ s = e.2.semaphore ∧ e.2.amount ≤ rem
      · rw [activate_viable_pos hcond.1 hcond.2.1 hcond.2.2]
        simp only [cntL_cons]
        have hih := resolveGo_cnt_mono s (rem - e.2.amount) rest htail
        have hold : e.2.count_active s = 0 := by
          simp [Peer.count_active, hcond.1]
        have hnew : ({ e.2 with active := true } : Peer).count_active s
            = e.2.amount := by
          simp [Peer.count_active, hcond.2.1]
        have hamt : 0 ≤ e.2.amount :=
          hpos e (List.mem_cons_self e rest) hcond.1 hcond.2.1.symm
        rw [hold, hnew]
        omega
      · rw [activate_viable_neg hcond]
        simp only [cntL_cons]
        have hih := resolveGo_cnt_mono s rem rest htail
        omega

/-- After one pass of `resolveGo` started with remainder `rem`, every
still-pending lease of the semaphore is larger than what is left of the
remainder: `rem` minus the total amount the pass activated. -/
theorem resolveGo_fixedPoint (s : String) :
    ∀ (rem : Int) (lst : List (Nat × Peer)),
      (∀ e ∈ lst, e.2.active = false → e.2.semaphore = s → 0 < e.2.amount) →
      ∀ e' ∈ Leases.resolveGo s rem lst, e'.2.active = false →
        e'.2.semaphore = s →
        rem - (cntL s (Leases.resolveGo s rem lst) - cntL s lst) < e'.2.amount
  | _, [], _ => by intro e' he'; exact absurd he' (List.not_mem_nil e')
  | rem, e :: rest, hpos => by
    intro e' he' hpend hsem
    rw [resolveGo_cons] at he' ⊢
    by_cases hrem : rem ≤ 0
    · rw [if_pos hrem] at he' ⊢
      have := hpos e' he' hpend hsem
      omega
    · rw [if_neg hrem] at he' ⊢
      have htail0 : ∀ x ∈ rest, x.2.active = false → x.2.semaphore = s →
          0 < x.2.amount :=
        fun x hx => hpos x (List.mem_cons_of_mem e hx)
      by_cases hcond : e.2.active = false ∧ s = e.2.semaphore ∧ e.2.amount ≤ rem
      · rw [activate_viable_pos hcond.1 hcond.2.1 hcond.2.2] at he' ⊢
        simp only [cntL_cons]
        have hold : e.2.count_active s = 0 := by
          simp [Peer.count_active, hcond.1]
        have hnew : ({ e.2 with active := true } : Peer).count_active s
            = e.2.amount := by
          simp [Peer.count_active, hcond.2.1]
        rw [hold, hnew]
        rcases List.mem_cons.1 he' with heq | htl
        · exfalso
          have : e'.2.active = true := by rw [heq]
          rw [this] at hpend
          exact Bool.noConfusion hpend
        · have hih := resolveGo_fixedPoint s (rem - e.2.amount) rest htail0
            e' htl hpend hsem
          omega
      · rw [activate_viable_neg hcond] at he' ⊢
        simp only [cntL_cons]
        have hmono : cntL s rest ≤ cntL s (Leases.resolveGo s rem rest) :=
          resolveGo_cnt_mono s rem rest fun x hx ha hs =>
            le_of_lt (htail0 x hx ha hs)
        rcases List.mem_cons.1 he' with heq | htl
        · have h1 : e.2.active = false := by rw [heq] at hpend; exact hpend
          have h2 : s = e.2.semaphore := by rw [heq] at hsem; exact hsem.symm
          have hgt : rem < e.2.amount := by
            by_contra hle
            exact hcond ⟨h1, h2, by omega⟩
          have hamt : e'.2.amount = e.2.amount := by rw [heq]
          omega
        · have hih := resolveGo_fixedPoint s rem rest htail0 e' htl hpend hsem
          omega

/-- When no pending lease of the semaphore fits in the remainder,
`resolveGo` is the identity. -/
theorem resolveGo_id (s : String) :
    ∀ (rem : Int) (lst : List (Nat × Peer)),
      (∀ e ∈ lst, e.2.active = false → e.2.semaphore = s → rem < e.2.amount) →
      Leases.resolveGo s rem lst = lst
  | _, [], _ => rfl
  | rem, e :: rest, hbig => by
    rw [resolveGo_cons]
    by_cases hrem : rem ≤ 0
    · rw [if_pos hrem]
    · rw [if_neg hrem]
      have hhead : ¬ (e.2.active = false ∧ s = e.2.semaphore ∧ e.2.amount ≤ rem) := by
        rintro ⟨ha, hs, hle⟩
        have := hbig e (List.mem_cons_self e rest) ha hs.symm
        omega
      rw [activate_viable_neg hhead]
      rw [resolveGo_id s rem rest fun x hx => hbig x (List.mem_cons_of_mem e hx)]

theorem forall₂_mem_right {α β : Type} {R : α → β → Prop} :
    ∀ {l₁ : List α} {l₂ : List β}, List.Forall₂ R l₁ l₂ →
      ∀ x ∈ l₂, ∃ y ∈ l₁, R y x := by
  intro l₁ l₂ h
  induction h with
  | nil => intro x hx; exact absurd hx (List.not_mem_nil x)
  | cons hr _ ih =>
    intro x hx
    rcases List.mem_cons.1 hx with rfl | hx'
    · exact ⟨_, List.mem_cons_self _ _, hr⟩
    · rcases ih x hx' with ⟨y, hy, hxy⟩
      exact ⟨y, List.mem_cons_of_mem _ hy, hxy⟩

/-- Every entry of a resolved ledger descends from an entry of the input
ledger with the same id, semaphore, amount and deadline; pending output
entries were already pending. -/
theorem resolveGo_mem (s : String) (rem : Int) (lst : List (Nat × Peer)) :
    ∀ e' ∈ Leases.resolveGo s rem lst, ∃ e ∈ lst,
      e'.1 = e.1 ∧ e'.2.semaphore = e.2.semaphore ∧ e'.2.amount = e.2.amount ∧
      e'.2.valid_until = e.2.valid_until ∧
      (e'.2.active = false → e.2.active = false) := by
  intro e' he'
  rcases forall₂_mem_right (resolveGo_frame s rem lst) e' he' with ⟨e, he, hf⟩
  refine ⟨e, he, hf.1, hf.2.1, hf.2.2.1, hf.2.2.2.1, ?_⟩
  intro hpend
  by_cases hsame : e'.2.active = e.2.active
  · rw [← hsame]; exact hpend
  · exact (hf.2.2.2.2.2 hsame).2.1

theorem filter_length_split {α : Type} (p : α → Bool) (l : List α) :
    (l.filter p).length + (l.filter (fun a => !(p a))).length = l.length := by
  induction l with
  | nil => rfl
  | cons a l ih =>
    by_cases h : p a = true
    · simp [List.filter_cons, h]; omega
    · have h' : p a = false := by
        cases hpa : p a
        · rfl
        · exact absurd hpa h
      simp [List.filter_cons, h']
      omega

/-- Function `update_valid_until` never changes any semaphore count. -/
theorem update_valid_until_count (l : Leases) (peer_id vu : Nat) (s : String) :
    (l.update_valid_until peer_id vu).2.count s = l.count s := by
  unfold Leases.update_valid_until
  by_cases h : (l.lookup peer_id).isSome
  · rw [if_pos h]
    show cntL s (l.ledger.map _) = cntL s l.ledger
    unfold cntL
    rw [List.map_map]
    congr 1
    apply List.map_congr_left
    intro e _
    show ((if e.1 == peer_id then (e.1, { e.2 with valid_until := vu }) else e).2.count_active s)
        = e.2.count_active s
    by_cases he : (e.1 == peer_id) = true
    · rw [if_pos he]
      rfl
    · rw [if_neg he]
  · rw [if_neg h]

/-- Function `update_valid_until` relates input and output ledgers pointwise:
identity except possibly the deadline of the addressed peer. -/
theorem update_valid_until_frame (l : Leases) (peer_id vu : Nat) :
    List.Forall₂ (fun e e' : Nat × Peer =>
        e'.1 = e.1 ∧ e'.2.semaphore = e.2.semaphore ∧
        e'.2.amount = e.2.amount ∧ e'.2.active = e.2.active ∧
        (e.1 ≠ peer_id → e' = e) ∧ (e.1 = peer_id → e'.2.valid_until = vu))
      l.ledger (l.update_valid_until peer_id vu).2.ledger := by
  unfold Leases.update_valid_until
  by_cases h : (l.lookup peer_id).isSome
  · rw [if_pos h]
    show List.Forall₂ _ l.ledger (l.ledger.map _)
    rw [List.forall₂_map_right_iff]
    refine List.forall₂_same.2 fun e _ => ?_
    by_cases he : (e.1 == peer_id) = true
    · have heq : e.1 = peer_id := by simpa using he
      rw [if_pos he]
      exact ⟨rfl, rfl, rfl, rfl, fun hne => absurd heq hne, fun _ => rfl⟩
    · have hne : ¬ e.1 = peer_id := fun hc => he (by rw [hc]; exact beq_self_eq_true _)
      rw [if_neg he]
      exact ⟨rfl, rfl, rfl, rfl, fun _ => rfl, fun hc => absurd hc hne⟩
  · rw [if_neg h]
    refine List.forall₂_same.2 fun e hmem =>
      ⟨rfl, rfl, rfl, rfl, fun _ => rfl, fun hc => ?_⟩
    exfalso
    apply h
    have hfind : (l.ledger.find? (fun x => x.1 == peer_id)).isSome := by
      rw [List.find?_isSome]
      exact ⟨e, hmem, by rw [hc]; exact beq_self_eq_true _⟩
    rcases Option.isSome_iff_exists.1 hfind with ⟨v, hv⟩
    show ((l.ledger.find? (fun x => x.1 == peer_id)).map (·.2)).isSome = true
    rw [hv]
    rfl

/-! ### Ledger invariants -/

/-- Invariant: the active count of every configured semaphore is within
its configured maximum. -/
def CountBound (cfg : List (String × Int)) (l : Leases) : Prop :=
  ∀ s m, lookupSem cfg s = some m → l.count s ≤ m

/-- Invariant: every lease carries a nonnegative amount (amounts enter
the ledger as `u32` casts). -/
def AmountsNonneg (l : Leases) : Prop :=
  ∀ e ∈ l.ledger, 0 ≤ e.2.amount

theorem count_add (l : Leases) (s : String) (amount : Nat) (max : Int)
    (vu pid : Nat) (s' : String) :
    (l.add s amount max vu pid).2.count s' =
      l.count s' +
        (Peer.mk s (decide (l.count s + (amount : Int) ≤ max)) (amount : Int)
          vu).count_active s' := by
  show cntL s' (l.ledger ++ [_]) = _
  rw [cntL_append]
  simp [cntL]
  rfl

theorem count_revenant (l : Leases) (pid : Nat) (s : String) (amount : Nat)
    (was_active : Bool) (max : Int) (vu : Nat) (s' : String) :
    (l.revenant pid s amount was_active max vu).count s' =
      l.count s' +
        (Peer.mk s (was_active || decide (l.count s + (amount : Int) ≤ max))
          (amount : Int) vu).count_active s' := by
  show cntL s' (l.ledger ++ [_]) = _
  rw [cntL_append]
  simp [cntL]
  rfl

theorem lookupSem_inj {cfg : List (String × Int)} {s : String} {m m' : Int}
    (h : lookupSem cfg s = some m) (h' : lookupSem cfg s = some m') : m = m' := by
  rw [h] at h'
  exact Option.some_inj.1 h'

theorem countBound_add {cfg : List (String × Int)} {l : Leases} {s : String}
    {m : Int} (hB : CountBound cfg l) (hs : lookupSem cfg s = some m)
    (amount : Nat) (vu pid : Nat) :
    CountBound cfg (l.add s amount m vu pid).2 := by
  intro s' m' hs'
  rw [count_add]
  by_cases hss : s = s'
  · subst hss
    have hmm : m = m' := lookupSem_inj hs hs'
    subst hmm
    by_cases hact : (l.count s + (amount : Int) ≤ m)
    · have : (Peer.mk s (decide (l.count s + (amount : Int) ≤ m)) (amount : Int)
          vu).count_active s = (amount : Int) := by
        simp [Peer.count_active, hact]
      rw [this]
      omega
    · have : (Peer.mk s (decide (l.count s + (amount : Int) ≤ m)) (amount : Int)
          vu).count_active s = 0 := by
        simp [Peer.count_active, hact]
      rw [this]
      have := hB s m hs
      omega
  · have : (Peer.mk s (decide (l.count s + (amount : Int) ≤ m)) (amount : Int)
        vu).count_active s' = 0 := by
      simp [Peer.count_active, hss]
    rw [this]
    have := hB s' m' hs'
    omega

theorem amounts_add {l : Leases} (hA : AmountsNonneg l) (s : String)
    (amount : Nat) (max : Int) (vu pid : Nat) :
    AmountsNonneg (l.add s amount max vu pid).2 := by
  intro e he
  rcases List.mem_append.1 he with h | h
  · exact hA e h
  · rcases List.mem_singleton.1 h with rfl
    exact Int.natCast_nonneg amount

theorem countBound_resolve {cfg : List (String × Int)} {l : Leases} {s : String}
    {m : Int} (hB : CountBound cfg l) (hs : lookupSem cfg s = some m) :
    CountBound cfg (l.resolve_pending s m) := by
  intro s' m' hs'
  by_cases hss : s' = s
  · subst hss
    have hmm : m = m' := lookupSem_inj hs hs'
    subst hmm
    have h1 := resolveGo_cnt_le s' (m - cntL s' l.ledger) l.ledger
    have h2 := hB s' m hs
    rw [count_eq_cntL] at h2
    show cntL s' (Leases.resolveGo s' (m - cntL s' l.ledger) l.ledger) ≤ m
    omega
  · have h1 := resolveGo_cnt_other hss (m - cntL s l.ledger) l.ledger
    have h2 := hB s' m' hs'
    rw [count_eq_cntL] at h2
    show cntL s' (Leases.resolveGo s (m - cntL s l.ledger) l.ledger) ≤ m'
    omega

theorem amounts_resolve {l : Leases} (hA : AmountsNonneg l) (s : String)
    (m : Int) : AmountsNonneg (l.resolve_pending s m) := by
  intro e' he'
  rcases resolveGo_mem s (m - l.count s) l.ledger e' he' with
    ⟨e, he, _, _, hamt, _⟩
  rw [hamt]
  exact hA e he

theorem countBound_revenant_pending {cfg : List (String × Int)} {l : Leases}
    {s : String} {m : Int} (hB : CountBound cfg l)
    (hs : lookupSem cfg s = some m) (pid : Nat) (amount : Nat) (vu : Nat) :
    CountBound cfg (l.revenant pid s amount false m vu) := by
  intro s' m' hs'
  rw [count_revenant]
  by_cases hss : s = s'
  · subst hss
    have hmm : m = m' := lookupSem_inj hs hs'
    subst hmm
    by_cases hact : (l.count s + (amount : Int) ≤ m)
    · have : (Peer.mk s (false || decide (l.count s + (amount : Int) ≤ m))
          (amount : Int) vu).count_active s = (amount : Int) := by
        simp [Peer.count_active, hact]
      rw [this]
      omega
    · have : (Peer.mk s (false || decide (l.count s + (amount : Int) ≤ m))
          (amount : Int) vu).count_active s = 0 := by
        simp [Peer.count_active, hact]
      rw [this]
      have := hB s m hs
      omega
  · have : (Peer.mk s (false || decide (l.count s + (amount : Int) ≤ m))
        (amount : Int) vu).count_active s' = 0 := by
      simp [Peer.count_active, hss]
    rw [this]
    have := hB s' m' hs'
    omega

theorem amounts_revenant {l : Leases} (hA : AmountsNonneg l) (pid : Nat)
    (s : String) (amount : Nat) (was_active : Bool) (max : Int) (vu : Nat) :
    AmountsNonneg (l.revenant pid s amount was_active max vu) := by
  intro e he
  rcases List.mem_append.1 he with h | h
  · exact hA e h
  · rcases List.mem_singleton.1 h with rfl
    exact Int.natCast_nonneg amount

theorem remove_sublist (l : Leases) (pid : Nat) :
    (l.remove pid).2.ledger.Sublist l.ledger := by
  unfold Leases.remove
  cases l.lookup pid with
  | some p => exact List.filter_sublist l.ledger
  | none => exact List.Sublist.refl _

theorem countBound_remove {cfg : List (String × Int)} {l : Leases}
    (hB : CountBound cfg l) (hA : AmountsNonneg l) (pid : Nat) :
    CountBound cfg (l.remove pid).2 := by
  intro s' m' hs'
  have h1 : cntL s' (l.remove pid).2.ledger ≤ cntL s' l.ledger :=
    cntL_sublist_le (remove_sublist l pid) hA
  have h2 := hB s' m' hs'
  rw [count_eq_cntL] at h2 ⊢
  omega

theorem amounts_remove {l : Leases} (hA : AmountsNonneg l) (pid : Nat) :
    AmountsNonneg (l.remove pid).2 :=
  fun e he => hA e ((remove_sublist l pid).subset he)

theorem countBound_remove_expired {cfg : List (String × Int)} {l : Leases}
    (hB : CountBound cfg l) (hA : AmountsNonneg l) (now : Nat) :
    CountBound cfg (l.remove_expired now).2 := by
  intro s' m' hs'
  have h1 : cntL s' (l.remove_expired now).2.ledger ≤ cntL s' l.ledger :=
    cntL_sublist_le (List.filter_sublist l.ledger) hA
  have h2 := hB s' m' hs'
  rw [count_eq_cntL] at h2 ⊢
  omega

theorem amounts_remove_expired {l : Leases} (hA : AmountsNonneg l) (now : Nat) :
    AmountsNonneg (l.remove_expired now).2 :=
  fun e he => hA e ((List.filter_sublist l.ledger).subset he)

theorem countBound_update {cfg : List (String × Int)} {l : Leases}
    (hB : CountBound cfg l) (pid vu : Nat) :
    CountBound cfg (l.update_valid_until pid vu).2 := by
  intro s' m' hs'
  rw [update_valid_until_count]
  exact hB s' m' hs'

theorem amounts_update {l : Leases} (hA : AmountsNonneg l) (pid vu : Nat) :
    AmountsNonneg (l.update_valid_until pid vu).2 := by
  intro e' he'
  rcases forall₂_mem_right (update_valid_until_frame l pid vu) e' he' with
    ⟨e, he, hrel⟩
  rw [hrel.2.2.1]
  exact hA e he

/-- One pass of `resolve_pending` reaches the fixed point: afterwards no
pending lease of the semaphore fits into the remaining capacity, as long
as pending leases of the semaphore carry positive amounts. -/
theorem resolve_pending_fixedPoint (lg : Leases) (s : String) (m : Int)
    (hpos : ∀ e ∈ lg.ledger, e.2.active = false → e.2.semaphore = s →
      0 < e.2.amount) :
    ∀ e ∈ (lg.resolve_pending s m).ledger, e.2.active = false →
      e.2.semaphore = s →
      m - (lg.resolve_pending s m).count s < e.2.amount := by
  intro e he hp hs2
  have h := resolveGo_fixedPoint s (m - cntL s lg.ledger) lg.ledger hpos e he hp hs2
  rw [count_eq_cntL]
  show m - cntL s (Leases.resolveGo s (m - cntL s lg.ledger) lg.ledger) < e.2.amount
  omega

theorem lookup_append_fresh (l : Leases) (pid : Nat) (p : Peer)
    (hfresh : ∀ e ∈ l.ledger, e.1 ≠ pid) :
    (Leases.mk (l.ledger ++ [(pid, p)])).lookup pid = some p := by
  unfold Leases.lookup
  show ((l.ledger ++ [(pid, p)]).find? (fun e => e.1 == pid)).map (·.2) = some p
  rw [List.find?_append]
  have h1 : l.ledger.find? (fun e => e.1 == pid) = none := by
    rw [List.find?_eq_none]
    intro e he hc
    exact hfresh e he (by simpa using hc)
  have h2 : ([(pid, p)] : List (Nat × Peer)).find? (fun e => e.1 == pid)
      = some (pid, p) := by
    simp [List.find?]
  rw [h1, h2]
  rfl

theorem update_lookup_isSome (l : Leases) (pid vu : Nat) :
    ((l.update_valid_until pid vu).2.lookup pid).isSome = (l.lookup pid).isSome := by
  unfold Leases.update_valid_until
  by_cases h : (l.lookup pid).isSome
  · rw [if_pos h, h]
    unfold Leases.lookup
    rw [Option.isSome_map']
    unfold Leases.lookup at h
    rw [Option.isSome_map'] at h
    rw [List.find?_isSome] at h
    rw [List.find?_isSome]
    rcases h with ⟨e, he, hpe⟩
    refine ⟨if e.1 == pid then (e.1, { e.2 with valid_until := vu }) else e, ?_, ?_⟩
    · exact List.mem_map.2 ⟨e, he, rfl⟩
    · simp only [if_pos hpe]
      exact hpe
  · rw [if_neg h]

theorem forall₂_map_fst {R : (Nat × Peer) → (Nat × Peer) → Prop}
    (hR : ∀ a b, R a b → b.1 = a.1) :
    ∀ {l₁ l₂ : List (Nat × Peer)}, List.Forall₂ R l₁ l₂ →
      l₂.map Prod.fst = l₁.map Prod.fst := by
  intro l₁ l₂ h
  induction h with
  | nil => rfl
  | cons hr _ ih => simp only [List.map_cons, ih, hR _ _ hr]

/-! ### Claim theorems -/

/-- C10: `resolve_pending(s, max)` only ever changes `active` fields from
`false` to `true`, and only on leases whose semaphore equals `s`; the
sequence of peer ids and every lease's semaphore, amount and deadline are
unchanged, every already-active lease stays active, and leases on other
semaphores are untouched. -/
theorem C10_resolve_pending_frame (l : Leases) (semaphore : String) (max : Int) :
    List.Forall₂ (ResolveFrame semaphore) l.ledger
      (l.resolve_pending semaphore max).ledger ∧
    (l.resolve_pending semaphore max).ledger.map Prod.fst
      = l.ledger.map Prod.fst :=
  ⟨resolveGo_frame semaphore (max - l.count semaphore) l.ledger,
   forall₂_map_fst (fun _ _ hr => hr.1)
     (resolveGo_frame semaphore (max - l.count semaphore) l.ledger)⟩

/-- C3: when `s` is configured with maximum `max(s)` and the requested
amount exceeds it, `acquire` returns `ForeverPending{asked, max}` and the
state — in particular the ledger — is unchanged. -/
theorem C3_forever_pending (st : St) (semaphore : String) (m : Int)
    (amount valid_until peer_id : Nat)
    (hcfg : lookupSem st.semaphores semaphore = some m)
    (hgt : m < (amount : Int)) :
    st.acquire semaphore amount valid_until peer_id
      = (.error (.ForeverPending (amount : Int) m), st) := by
  unfold St.acquire
  rw [hcfg]
  simp only [if_pos hgt]

theorem C3_witness :
    lookupSem [("A", 5)] ("A") = some 5 ∧
    (St.mk [("A", 5)] Leases.new).acquire ("A") 6 0 7
      = (.error (.ForeverPending 6 5), St.mk [("A", 5)] Leases.new) :=
  ⟨rfl, C3_forever_pending (St.mk [("A", 5)] Leases.new) ("A") 5 6 0 7 rfl (by decide)⟩

/-- C4: `remove_expired(now)` keeps exactly the leases with
`now < valid_until`, returns the number of leases with
`valid_until ≤ now`, and leaves every surviving entry bit-identical (in
particular no pending lease is flipped to active: the sweep performs no
`resolve_pending`). -/
theorem C4_expiry_sweep (st : St) (now : Nat) :
    (st.remove_expired now).2.leases.ledger
        = st.leases.ledger.filter (fun e => decide (now < e.2.valid_until)) ∧
    (st.remove_expired now).1
        = (st.leases.ledger.filter
            (fun e => decide (e.2.valid_until ≤ now))).length ∧
    (∀ e ∈ st.leases.ledger,
        e ∈ (st.remove_expired now).2.leases.ledger ↔ now < e.2.valid_until) ∧
    (∀ e ∈ (st.remove_expired now).2.leases.ledger, e ∈ st.leases.ledger) := by
  refine ⟨rfl, ?_, ?_, ?_⟩
  · show st.leases.ledger.length -
        (st.leases.ledger.filter (fun e => decide (now < e.2.valid_until))).length
        = _
    have hsplit := filter_length_split
      (fun e : Nat × Peer => decide (now < e.2.valid_until)) st.leases.ledger
    have hcongr : st.leases.ledger.filter
          (fun e : Nat × Peer => !(decide (now < e.2.valid_until)))
        = st.leases.ledger.filter (fun e => decide (e.2.valid_until ≤ now)) := by
      apply List.filter_congr
      intro e _
      rcases Nat.lt_or_ge now e.2.valid_until with h | h
      · simp [h, Nat.not_le.2 h]
      · simp [Nat.not_lt.2 h, h]
    rw [hcongr] at hsplit
    omega
  · intro e he
    constructor
    · intro hmem
      exact of_decide_eq_true (List.mem_filter.1 hmem).2
    · intro hlt
      exact List.mem_filter.2 ⟨he, decide_eq_true hlt⟩
  · intro e he
    exact (List.mem_filter.1 he).1

/-- Concrete state used by the witness of the expiry-sweep theorem. -/
def c4St : St :=
  St.mk [("A", 5)]
    (Leases.mk [(1, Peer.mk ("A") true 3 10), (2, Peer.mk ("A") false 4 200)])

theorem C4_witness :
    (c4St.remove_expired 100).2.leases.ledger = [(2, Peer.mk ("A") false 4 200)] ∧
    (c4St.remove_expired 100).1 = 1 ∧
    ((2, Peer.mk ("A") false 4 200) ∈ (c4St.remove_expired 100).2.leases.ledger ↔
      (100 : Nat) < 200) := by
  have h := C4_expiry_sweep c4St 100
  refine ⟨?_, ?_, ?_⟩
  · rw [h.1]
    decide
  · rw [h.2.1]
    decide
  · exact h.2.2.1 (2, Peer.mk ("A") false 4 200) (by decide)

/-- C1: on a ledger within bounds (as is every reachable ledger in which
no `was_active = true` revenant was accepted while over capacity, ledger
amounts being `u32` casts), each operation — `add`, `resolve_pending`, a
revenant with `was_active = false`, `remove`, `remove_expired` and
`update_valid_until`, each invoked with the configured maximum of its
semaphore — keeps the active count of every configured semaphore at or
below its maximum (and keeps amounts nonnegative). -/
theorem C1_no_overbooking (cfg : List (String × Int)) (l : Leases) (s : String)
    (m : Int) (amount vu pid now : Nat)
    (hB : CountBound cfg l) (hA : AmountsNonneg l)
    (hs : lookupSem cfg s = some m) :
    (CountBound cfg (l.add s amount m vu pid).2 ∧
      AmountsNonneg (l.add s amount m vu pid).2) ∧
    (CountBound cfg (l.resolve_pending s m) ∧
      AmountsNonneg (l.resolve_pending s m)) ∧
    (CountBound cfg (l.revenant pid s amount false m vu) ∧
      AmountsNonneg (l.revenant pid s amount false m vu)) ∧
    (CountBound cfg (l.remove pid).2 ∧ AmountsNonneg (l.remove pid).2) ∧
    (CountBound cfg (l.remove_expired now).2 ∧
      AmountsNonneg (l.remove_expired now).2) ∧
    (CountBound cfg (l.update_valid_until pid vu).2 ∧
      AmountsNonneg (l.update_valid_until pid vu).2) :=
  ⟨⟨countBound_add hB hs amount vu pid, amounts_add hA s amount m vu pid⟩,
   ⟨countBound_resolve hB hs, amounts_resolve hA s m⟩,
   ⟨countBound_revenant_pending hB hs pid amount vu,
     amounts_revenant hA pid s amount false m vu⟩,
   ⟨countBound_remove hB hA pid, amounts_remove hA pid⟩,
   ⟨countBound_remove_expired hB hA now, amounts_remove_expired hA now⟩,
   ⟨countBound_update hB pid vu, amounts_update hA pid vu⟩⟩

theorem C1_witness :
    CountBound [("A", 5)] (Leases.new.add ("A") 3 5 100 1).2 ∧
    AmountsNonneg (Leases.new.add ("A") 3 5 100 1).2 :=
  (C1_no_overbooking [("A", 5)] Leases.new ("A") 5 3 100 1 0
    (by
      intro s m h
      unfold lookupSem at h
      by_cases hs : (("A" : String) == s) = true
      · have hf : List.find? (fun e => e.1 == s) [(("A" : String), (5 : Int))]
            = some ("A", 5) := by
          simp [List.find?, hs]
        rw [hf] at h
        have hm : m = 5 := by
          simpa using h.symm
        have hc : Leases.new.count s = 0 := rfl
        rw [hc, hm]
        decide
      · have hf : List.find? (fun e => e.1 == s) [(("A" : String), (5 : Int))]
            = none := by
          simp [List.find?, hs]
        rw [hf] at h
        cases h)
    (fun e he => absurd he (List.not_mem_nil e))
    rfl).1

/-- C6: with every ledger amount positive (spec invariant 5) and `s`
configured with maximum equal to the requested amount, `acquire` of the
full amount is accepted — never `ForeverPending` — and the returned lease
is active exactly when the semaphore's active count is zero. -/
theorem C6_boundary_full_amount (st : St) (semaphore : String) (amount : Nat)
    (valid_until peer_id : Nat)
    (hcfg : lookupSem st.semaphores semaphore = some ((amount : Int)))
    (hpos : ∀ e ∈ st.leases.ledger, 0 < e.2.amount) :
    ∃ active,
      st.acquire semaphore amount valid_until peer_id
        = (.ok (peer_id, active),
           { st with leases := (st.leases.add semaphore amount (amount : Int)
              valid_until peer_id).2 }) ∧
      (active = true ↔ st.leases.count semaphore = 0) := by
  have hnotgt : ¬ ((amount : Int) < (amount : Int)) := lt_irrefl _
  refine ⟨decide (st.leases.count semaphore + (amount : Int) ≤ (amount : Int)),
    ?_, ?_⟩
  · unfold St.acquire
    rw [hcfg]
    simp only [if_neg hnotgt]
    rfl
  · have hnn : 0 ≤ st.leases.count semaphore := by
      rw [count_eq_cntL]
      exact cntL_nonneg (fun e he => le_of_lt (hpos e he))
    constructor
    · intro hd
      have := of_decide_eq_true hd
      omega
    · intro h0
      apply decide_eq_true
      omega

theorem C6_witness :
    ∃ active,
      (St.mk [("A", 5)] Leases.new).acquire ("A") 5 100 7
        = (.ok (7, active),
           { St.mk [("A", 5)] Leases.new with
              leases := (Leases.new.add ("A") 5 5 100 7).2 }) ∧
      (active = true ↔ Leases.new.count ("A") = 0) :=
  C6_boundary_full_amount (St.mk [("A", 5)] Leases.new) ("A") 5 100 7 rfl
    (fun e he => absurd he (List.not_mem_nil e))

/-- Reduction of `State::release` when the peer holds a lease on a
configured semaphore. -/
theorem release_eq (st : St) (pid : Nat) (s : String) (m : Int) (l' : Leases)
    (h1 : st.leases.remove pid = (some s, l'))
    (h2 : lookupSem st.semaphores s = some m) :
    st.release pid = (true, { st with leases := l'.resolve_pending s m }) := by
  unfold St.release
  rw [h1]
  simp only [h2]

/-- C2: when `release` removes a lease on configured semaphore `s` (with
the spec's invariant that pending amounts are positive in the pre-state),
the resulting ledger has no pending lease on `s` that would still fit:
`max(s) - count(s) < amount` for every pending lease on `s`.  Moreover a
single `resolve_pending(s, max)` establishes this fixed point from any
ledger whose pending leases on `s` have positive amounts. -/
theorem C2_release_fixed_point (st : St) (peer_id : Nat) (semaphore : String)
    (m : Int) (l' : Leases)
    (hpos : ∀ e ∈ st.leases.ledger, e.2.active = false →
      e.2.semaphore = semaphore → 0 < e.2.amount)
    (hrem : st.leases.remove peer_id = (some semaphore, l'))
    (hcfg : lookupSem st.semaphores semaphore = some m) :
    (st.release peer_id).1 = true ∧
    (∀ e ∈ (st.release peer_id).2.leases.ledger,
        e.2.active = false → e.2.semaphore = semaphore →
        m - (st.release peer_id).2.leases.count semaphore < e.2.amount) ∧
    (∀ lg : Leases,
        (∀ e ∈ lg.ledger, e.2.active = false → e.2.semaphore = semaphore →
          0 < e.2.amount) →
        ∀ e ∈ (lg.resolve_pending semaphore m).ledger,
          e.2.active = false → e.2.semaphore = semaphore →
          m - (lg.resolve_pending semaphore m).count semaphore < e.2.amount) := by
  have hrel := release_eq st peer_id semaphore m l' hrem hcfg
  refine ⟨by rw [hrel], ?_, fun lg h => resolve_pending_fixedPoint lg semaphore m h⟩
  rw [hrel]
  have hpos' : ∀ e ∈ l'.ledger, e.2.active = false →
      e.2.semaphore = semaphore → 0 < e.2.amount := by
    intro e he
    have hsub := remove_sublist st.leases peer_id
    rw [hrem] at hsub
    exact hpos e (hsub.subset he)
  exact resolve_pending_fixedPoint l' semaphore m hpos'

/-- Concrete state used by the witness of the release fixed-point
theorem: one active lease of 5 and one pending lease of 3 on `A`. -/
def c2St : St :=
  St.mk [("A", 5)]
    (Leases.mk [(1, Peer.mk ("A") true 5 100), (2, Peer.mk ("A") false 3 100)])

theorem C2_witness :
    (c2St.release 1).1 = true ∧
    (∀ e ∈ (c2St.release 1).2.leases.ledger,
        e.2.active = false → e.2.semaphore = "A" →
        5 - (c2St.release 1).2.leases.count ("A") < e.2.amount) := by
  have h := C2_release_fixed_point c2St 1 ("A") 5
    (Leases.mk [(2, Peer.mk ("A") false 3 100)]) (by decide) (by decide) rfl
  exact ⟨h.1, h.2.1⟩

/-- Reachable state refuting the unrestricted round-trip law: one
pending lease of 3 on `A` (`max(A) = 5`) stranded by an expiry sweep,
which broadcasts but runs no `resolve_pending`. -/
def c5StrandedSt : St :=
  St.mk [("A", 5)] (Leases.mk [(2, Peer.mk ("A") false 3 100)])

/-- C5 counterexample: the round-trip law fails on a reachable state.
Acquire 5 (active), acquire 3 (pending), then an expiry sweep at `now =
50` removes the active lease and strands the pending one — reaching
`c5StrandedSt`, where `remainder(A) = 5`.  There `acquire(A, 1)` returns
`(9, true)`, and the immediately following `release(9)` returns `true`
but its `resolve_pending` activates the stranded lease: `remainder(A)`
ends at `2`, not at its prior value `5`. -/
theorem C5_counterexample :
    ((((St.mk [("A", 5)] Leases.new).acquire ("A") 5 10 1).2.acquire ("A") 3
        100 2).2.remove_expired 50).2 = c5StrandedSt ∧
    c5StrandedSt.remainder ("A") = .ok 5 ∧
    (c5StrandedSt.acquire ("A") 1 100 9).1 = .ok (9, true) ∧
    ((c5StrandedSt.acquire ("A") 1 100 9).2.release 9).1 = true ∧
    ((c5StrandedSt.acquire ("A") 1 100 9).2.release 9).2.remainder ("A")
        = .ok 2 :=
  ⟨rfl, rfl, rfl, rfl, rfl⟩

/-- C5 amended: the round-trip law holds from every state at the
resolve-pending fixed point for configured semaphore `s` (spec
invariant 3 — re-established by every `release` but not by
`remove_expired`) in which the fresh peer id does not yet occur: an
`acquire` that returns `(peer_id, true)` followed immediately by
`release(peer_id)` returns `true` and restores `remainder(s)` to its
value just before the `acquire`. -/
theorem C5_roundtrip (st : St) (semaphore : String) (m : Int) (amount : Nat)
    (valid_until peer_id : Nat)
    (hcfg : lookupSem st.semaphores semaphore = some m)
    (hfresh : ∀ e ∈ st.leases.ledger, e.1 ≠ peer_id)
    (hfix : ∀ e ∈ st.leases.ledger, e.2.active = false →
        e.2.semaphore = semaphore →
        m - st.leases.count semaphore < e.2.amount)
    (hactive : (st.acquire semaphore amount valid_until peer_id).1
        = .ok (peer_id, true)) :
    ((st.acquire semaphore amount valid_until peer_id).2.release peer_id).1
        = true ∧
    St.remainder
      ((st.acquire semaphore amount valid_until peer_id).2.release peer_id).2
      semaphore = st.remainder semaphore := by
  by_cases hlt : m < (amount : Int)
  · exfalso
    unfold St.acquire at hactive
    rw [hcfg] at hactive
    simp only [if_pos hlt] at hactive
    exact Except.noConfusion hactive
  · have hadd : (st.acquire semaphore amount valid_until peer_id).2
        = { st with leases := Leases.mk (st.leases.ledger ++
            [(peer_id, Peer.mk semaphore
              (decide (st.leases.count semaphore + (amount : Int) ≤ m))
              (amount : Int) valid_until)]) } := by
      unfold St.acquire
      rw [hcfg]
      simp only [if_neg hlt]
      rfl
    have hrem1 : (Leases.mk (st.leases.ledger ++
        [(peer_id, Peer.mk semaphore
          (decide (st.leases.count semaphore + (amount : Int) ≤ m))
          (amount : Int) valid_until)])).remove peer_id
        = (some semaphore, st.leases) := by
      unfold Leases.remove
      rw [lookup_append_fresh st.leases peer_id _ hfresh]
      have hfil : (st.leases.ledger ++
          [(peer_id, Peer.mk semaphore
            (decide (st.leases.count semaphore + (amount : Int) ≤ m))
            (amount : Int) valid_until)]).filter (fun e => !(e.1 == peer_id))
          = st.leases.ledger := by
        rw [List.filter_append]
        have h1 : st.leases.ledger.filter (fun e => !(e.1 == peer_id))
            = st.leases.ledger :=
          List.filter_eq_self.2 (fun e he => by
            have := hfresh e he
            simp [this])
        have h2 : ([(peer_id, Peer.mk semaphore
            (decide (st.leases.count semaphore + (amount : Int) ≤ m))
            (amount : Int) valid_until)] : List (Nat × Peer)).filter
              (fun e => !(e.1 == peer_id)) = [] := by
          simp [List.filter]
        rw [h1, h2, List.append_nil]
      show (some semaphore, Leases.mk ((st.leases.ledger ++ _).filter _))
          = (some semaphore, st.leases)
      rw [hfil]
    have hres : st.leases.resolve_pending semaphore m = st.leases := by
      unfold Leases.resolve_pending
      rw [resolveGo_id semaphore (m - st.leases.count semaphore)
        st.leases.ledger hfix]
    have hrel := release_eq (st.acquire semaphore amount valid_until peer_id).2
      peer_id semaphore m st.leases (by rw [hadd]; exact hrem1)
      (by rw [hadd]; exact hcfg)
    rw [hrel, hres, hadd]
    exact ⟨rfl, rfl⟩

/-- Concrete state used by the witness of the round-trip theorem: one
active lease of 2 on `A`, no pending leases. -/
def c5St : St :=
  St.mk [("A", 5)] (Leases.mk [(1, Peer.mk ("A") true 2 50)])

theorem C5_witness :
    ((c5St.acquire ("A") 3 100 9).2.release 9).1 = true ∧
    ((c5St.acquire ("A") 3 100 9).2.release 9).2.remainder ("A")
        = c5St.remainder ("A") :=
  C5_roundtrip c5St ("A") 5 3 100 9 rfl (by decide) (by decide) rfl

theorem update_fst (l : Leases) (pid vu : Nat) :
    (l.update_valid_until pid vu).1 = (l.lookup pid).isSome := by
  unfold Leases.update_valid_until
  by_cases h : (l.lookup pid).isSome
  · rw [if_pos h, h]
  · rw [if_neg h]
    have hf : (l.lookup pid).isSome = false := by
      cases hh : (l.lookup pid).isSome
      · rfl
      · exact absurd hh h
    rw [hf]

theorem has_pending_isSome (l : Leases) (pid : Nat) :
    (l.has_pending pid).isSome = (l.lookup pid).isSome := by
  unfold Leases.has_pending
  rw [Option.isSome_map']

theorem fresh_of_lookup_none (l : Leases) (pid : Nat)
    (h : (l.lookup pid).isSome = false) : ∀ e ∈ l.ledger, e.1 ≠ pid := by
  intro e he hc
  unfold Leases.lookup at h
  rw [Option.isSome_map'] at h
  have hs : (l.ledger.find? (fun x => x.1 == pid)).isSome = true := by
    rw [List.find?_isSome]
    exact ⟨e, he, by rw [hc]; exact beq_self_eq_true _⟩
  rw [hs] at h
  exact Bool.noConfusion h

theorem has_pending_append (l : Leases) (pid : Nat) (p : Peer)
    (hfresh : ∀ e ∈ l.ledger, e.1 ≠ pid) :
    (Leases.mk (l.ledger ++ [(pid, p)])).has_pending pid = some p.active := by
  unfold Leases.has_pending
  rw [lookup_append_fresh l pid p hfresh]
  rfl

theorem revenant_has_pending (l : Leases) (pid : Nat) (s : String)
    (amount : Nat) (was_active : Bool) (m : Int) (vu : Nat)
    (hfresh : ∀ e ∈ l.ledger, e.1 ≠ pid) :
    (l.revenant pid s amount was_active m vu).has_pending pid
      = some (was_active || decide (l.count s + (amount : Int) ≤ m)) := by
  unfold Leases.revenant
  exact has_pending_append l pid _ hfresh

/-- Reduction of `block_until_acquired` when the peer is present: the
deadline is refreshed and the loop is entered on the updated ledger. -/
theorem bua_found (st : St) (pid vu : Nat) (s : String) (amount : Nat)
    (timeout elapsed : Nat) (hf : (st.leases.lookup pid).isSome = true) :
    st.block_until_acquired pid vu s amount timeout elapsed
      = (match (st.leases.update_valid_until pid vu).2.has_pending pid with
         | none => .error .UnknownPeer
         | some true => .ok (some true)
         | some false =>
           if timeout ≤ elapsed then .ok (some false) else .ok none,
         { st with leases := (st.leases.update_valid_until pid vu).2 }) := by
  unfold St.block_until_acquired
  simp only [update_fst, hf, if_true]

/-- Reduction of `block_until_acquired` when the peer is absent and the
semaphore configured: a pending revenant is reinserted and the loop is
entered on the extended ledger. -/
theorem bua_notfound (st : St) (pid vu : Nat) (s : String) (amount : Nat)
    (timeout elapsed : Nat) (m : Int)
    (hf : (st.leases.lookup pid).isSome = false)
    (hcfg : lookupSem st.semaphores s = some m) :
    st.block_until_acquired pid vu s amount timeout elapsed
      = (match (st.leases.revenant pid s amount false m vu).has_pending pid with
         | none => .error .UnknownPeer
         | some true => .ok (some true)
         | some false =>
           if timeout ≤ elapsed then .ok (some false) else .ok none,
         { st with leases := st.leases.revenant pid s amount false m vu }) := by
  unfold St.block_until_acquired
  simp only [update_fst, hf, Bool.false_eq_true, if_false, hcfg]

/-- C7: with `timeout = 0`, `block_until_acquired` returns without
reaching the condition-variable wait — after the deadline refresh (or
revenant reinsertion when the peer is absent) it returns `Ok true` when
the peer's lease is active and `Ok false` when it is pending. -/
theorem C7_zero_timeout (st : St) (peer_id valid_until : Nat)
    (semaphore : String) (amount : Nat) (elapsed : Nat)
    (hok : (st.leases.lookup peer_id).isSome = true ∨
      (lookupSem st.semaphores semaphore).isSome = true) :
    ∃ b,
      (st.block_until_acquired peer_id valid_until semaphore amount 0
        elapsed).1 = .ok (some b) ∧
      (st.block_until_acquired peer_id valid_until semaphore amount 0
        elapsed).2.leases.has_pending peer_id = some b := by
  cases hb : (st.leases.lookup peer_id).isSome
  · have hcfgS : (lookupSem st.semaphores semaphore).isSome = true := by
      rcases hok with h1 | h2
      · rw [hb] at h1
        exact absurd h1 Bool.noConfusion
      · exact h2
    obtain ⟨m, hm⟩ := Option.isSome_iff_exists.1 hcfgS
    rw [bua_notfound st peer_id valid_until semaphore amount 0 elapsed m hb hm]
    have hhp := revenant_has_pending st.leases peer_id semaphore amount false m
      valid_until (fresh_of_lookup_none st.leases peer_id hb)
    refine ⟨(false || decide (st.leases.count semaphore + (amount : Int) ≤ m)),
      ?_, hhp⟩
    cases hav : (false || decide (st.leases.count semaphore + (amount : Int) ≤ m))
    · rw [hav] at hhp
      show (match (st.leases.revenant peer_id semaphore amount false m
          valid_until).has_pending peer_id with
        | none => (.error .UnknownPeer : Except Error (Option Bool))
        | some true => .ok (some true)
        | some false =>
          if (0 : Nat) ≤ elapsed then .ok (some false) else .ok none)
        = .ok (some false)
      rw [hhp]
      rw [if_pos (Nat.zero_le elapsed)]
    · rw [hav] at hhp
      show (match (st.leases.revenant peer_id semaphore amount false m
          valid_until).has_pending peer_id with
        | none => (.error .UnknownPeer : Except Error (Option Bool))
        | some true => .ok (some true)
        | some false =>
          if (0 : Nat) ≤ elapsed then .ok (some false) else .ok none)
        = .ok (some true)
      rw [hhp]
  · rw [bua_found st peer_id valid_until semaphore amount 0 elapsed hb]
    have hs : ((st.leases.update_valid_until peer_id
        valid_until).2.has_pending peer_id).isSome = true := by
      rw [has_pending_isSome, update_lookup_isSome]
      exact hb
    obtain ⟨b, hbv⟩ := Option.isSome_iff_exists.1 hs
    refine ⟨b, ?_, hbv⟩
    cases b
    · show (match (st.leases.update_valid_until peer_id
          valid_until).2.has_pending peer_id with
        | none => (.error .UnknownPeer : Except Error (Option Bool))
        | some true => .ok (some true)
        | some false =>
          if (0 : Nat) ≤ elapsed then .ok (some false) else .ok none)
        = .ok (some false)
      rw [hbv]
      rw [if_pos (Nat.zero_le elapsed)]
    · show (match (st.leases.update_valid_until peer_id
          valid_until).2.has_pending peer_id with
        | none => (.error .UnknownPeer : Except Error (Option Bool))
        | some true => .ok (some true)
        | some false =>
          if (0 : Nat) ≤ elapsed then .ok (some false) else .ok none)
        = .ok (some true)
      rw [hbv]

/-- Concrete state used by the witness of the zero-timeout theorem: one
pending lease of 3 on `A` held by peer 1. -/
def c7St : St := St.mk [("A", 5)] (Leases.mk [(1, Peer.mk ("A") false 3 10)])

theorem C7_witness :
    ∃ b, (c7St.block_until_acquired 1 77 ("A") 3 0 4).1 = .ok (some b) ∧
      (c7St.block_until_acquired 1 77 ("A") 3 0 4).2.leases.has_pending 1
        = some b :=
  C7_zero_timeout c7St 1 77 ("A") 3 4 (Or.inl rfl)

/-- C9: when the peer id is already in the ledger,
`heartbeat_for_active_peer` returns `Ok(())` without looking at the
semaphore or amount arguments (no hypothesis on either is needed, the
semaphore may be unconfigured), and its only effect is refreshing the
peer's deadline; `block_until_acquired` likewise never reports
`UnknownSemaphore` for a present peer — it always returns `ok`. -/
theorem C9_heartbeat_no_validation (st : St) (peer_id : Nat)
    (semaphore : String) (amount valid_until : Nat)
    (hmem : (st.leases.lookup peer_id).isSome = true) :
    (st.heartbeat_for_active_peer peer_id semaphore amount valid_until).1
        = .ok () ∧
    (st.heartbeat_for_active_peer peer_id semaphore amount valid_until).2.leases
        = (st.leases.update_valid_until peer_id valid_until).2 ∧
    List.Forall₂ (fun e e' : Nat × Peer =>
        e'.1 = e.1 ∧ e'.2.semaphore = e.2.semaphore ∧
        e'.2.amount = e.2.amount ∧ e'.2.active = e.2.active ∧
        (e.1 ≠ peer_id → e' = e) ∧
        (e.1 = peer_id → e'.2.valid_until = valid_until))
      st.leases.ledger
      (st.heartbeat_for_active_peer peer_id semaphore amount
        valid_until).2.leases.ledger ∧
    (∀ timeout elapsed : Nat, ∃ r,
      (st.block_until_acquired peer_id valid_until semaphore amount timeout
        elapsed).1 = .ok r) := by
  have h1 : (st.leases.update_valid_until peer_id valid_until).1 = true := by
    rw [update_fst]
    exact hmem
  have hhb : st.heartbeat_for_active_peer peer_id semaphore amount valid_until
      = (.ok (),
         { st with leases :=
            (st.leases.update_valid_until peer_id valid_until).2 }) := by
    unfold St.heartbeat_for_active_peer
    simp only [h1, if_true]
  refine ⟨by rw [hhb], by rw [hhb], ?_, ?_⟩
  · rw [hhb]
    exact update_valid_until_frame st.leases peer_id valid_until
  · intro timeout elapsed
    rw [bua_found st peer_id valid_until semaphore amount timeout elapsed hmem]
    have hs : ((st.leases.update_valid_until peer_id
        valid_until).2.has_pending peer_id).isSome = true := by
      rw [has_pending_isSome, update_lookup_isSome]
      exact hmem
    obtain ⟨b, hbv⟩ := Option.isSome_iff_exists.1 hs
    cases b
    · by_cases ht : timeout ≤ elapsed
      · refine ⟨some false, ?_⟩
        show (match (st.leases.update_valid_until peer_id
            valid_until).2.has_pending peer_id with
          | none => (.error .UnknownPeer : Except Error (Option Bool))
          | some true => .ok (some true)
          | some false =>
            if timeout ≤ elapsed then .ok (some false) else .ok none)
          = .ok (some false)
        rw [hbv]
        rw [if_pos ht]
      · refine ⟨none, ?_⟩
        show (match (st.leases.update_valid_until peer_id
            valid_until).2.has_pending peer_id with
          | none => (.error .UnknownPeer : Except Error (Option Bool))
          | some true => .ok (some true)
          | some false =>
            if timeout ≤ elapsed then .ok (some false) else .ok none)
          = .ok none
        rw [hbv]
        rw [if_neg ht]
    · refine ⟨some true, ?_⟩
      show (match (st.leases.update_valid_until peer_id
          valid_until).2.has_pending peer_id with
        | none => (.error .UnknownPeer : Except Error (Option Bool))
        | some true => .ok (some true)
        | some false =>
          if timeout ≤ elapsed then .ok (some false) else .ok none)
        = .ok (some true)
      rw [hbv]

/-- Concrete state used by the witness of the heartbeat theorem: peer 3
holds a pending lease on `B`, the configuration is empty, and the
heartbeat names the unconfigured semaphore `Z` with a different amount. -/
def c9St : St := St.mk [] (Leases.mk [(3, Peer.mk ("B") false 2 10)])

theorem C9_witness :
    (c9St.heartbeat_for_active_peer 3 ("Z") 99 77).1 = .ok () ∧
    (∃ r, (c9St.block_until_acquired 3 77 ("Z") 99 0 0).1 = .ok r) := by
  have h := C9_heartbeat_no_validation c9St 3 ("Z") 99 77 rfl
  exact ⟨h.1, h.2.2.2 0 0⟩

/-- C8 counterexample: a request body `{pending: {"A": 0}}` is *not*
rejected by the adapter — with `max("A") = 5` and an empty ledger the
`/acquire` handler answers 201 Created and a lease with `amount = 0` is
inserted into the ledger through the public acquire path. -/
theorem C8_zero_amount_counterexample :
    (acquireEndpoint (St.mk [("A", 5)] Leases.new) [("A", 0)] 100 7).1
        = .created 7 ∧
    (acquireEndpoint (St.mk [("A", 5)] Leases.new)
        [("A", 0)] 100 7).2.leases.ledger
        = [(7, Peer.mk ("A") true 0 100)] :=
  ⟨rfl, rfl⟩

/-- C8 amended: the adapter rejects only *empty* bodies before reaching
the ledger; an acquire request with `amount = 0` and a non-empty body is
not rejected — when its semaphore is configured (with the count within
the nonnegative maximum) it reaches the ledger and inserts a lease with
`amount = 0` through the public acquire path. -/
theorem C8_adapter_empty_only (st : St) (valid_until peer_id : Nat)
    (pending : List (String × Nat)) (s : String) (m : Int) :
    (pending.head? = none →
      acquireEndpoint st pending valid_until peer_id = (.badRequestEmpty, st)) ∧
    (pending.head? = some (s, 0) → lookupSem st.semaphores s = some m →
      0 ≤ m → st.leases.count s ≤ m →
      (peer_id, Peer.mk s true 0 valid_until)
        ∈ (acquireEndpoint st pending valid_until peer_id).2.leases.ledger) := by
  constructor
  · intro hempty
    unfold acquireEndpoint
    rw [hempty]
  · intro hhead hcfg hm hcount
    have hnotlt : ¬ (m < ((0 : Nat) : Int)) := by
      simp only [Nat.cast_zero]
      omega
    have hact : (st.leases.add s 0 m valid_until peer_id).1 = true := by
      show decide (st.leases.count s + ((0 : Nat) : Int) ≤ m) = true
      apply decide_eq_true
      simp only [Nat.cast_zero]
      omega
    unfold acquireEndpoint
    rw [hhead]
    unfold St.acquire
    simp only [hcfg, if_neg hnotlt, hact]
    show (peer_id, Peer.mk s true 0 valid_until)
        ∈ st.leases.ledger ++ [(peer_id,
            Peer.mk s (decide (st.leases.count s + ((0 : Nat) : Int) ≤ m))
              ((0 : Nat) : Int) valid_until)]
    have hpeer : Peer.mk s (decide (st.leases.count s + ((0 : Nat) : Int) ≤ m))
        ((0 : Nat) : Int) valid_until = Peer.mk s true 0 valid_until := by
      have hdec : decide (st.leases.count s + ((0 : Nat) : Int) ≤ m) = true := hact
      rw [hdec]
      rfl
    rw [hpeer]
    exact List.mem_append_right _ (List.mem_singleton.2 rfl)

theorem C8_adapter_witness :
    acquireEndpoint (St.mk [("A", 5)] Leases.new) [] 100 7
        = (.badRequestEmpty, St.mk [("A", 5)] Leases.new) ∧
    (7, Peer.mk ("A") true 0 100)
        ∈ (acquireEndpoint (St.mk [("A", 5)] Leases.new)
            [("A", 0)] 100 7).2.leases.ledger :=
  ⟨(C8_adapter_empty_only (St.mk [("A", 5)] Leases.new) 100 7 [] ("A") 5).1 rfl,
   (C8_adapter_empty_only (St.mk [("A", 5)] Leases.new) 100 7 [("A", 0)] ("A")
      5).2 rfl rfl (by decide) (by decide)⟩

end Throttle
